import Mathlib

/-!
Verification of the content pipeline of the `rite` static-site generator
(src/post.rs and src/render.rs), over a shallow embedding in Lean.

Rust `String` values are modelled as `List Char`.  Rust compares strings
byte-wise on their UTF-8 encoding, and UTF-8 byte order coincides with code
point order, so the lexicographic order on `List Char` (by code point, see
`charListLe`) is a faithful model of Rust's `Ord` on `String`.
-/

namespace Rite

/-! ### Decimal digits and numbers rendered as text

`digitChar` and `natChars` model Rust's `Display` for unsigned integers
(as used by `format!` in post.rs): decimal, most significant digit first.
`natChars` is defined with an explicit fuel argument so that it is
structurally recursive and hence evaluates by kernel reduction.
-/
def digitChar : Nat → Char
  | 0 => '0'
  | 1 => '1'
  | 2 => '2'
  | 3 => '3'
  | 4 => '4'
  | 5 => '5'
  | 6 => '6'
  | 7 => '7'
  | 8 => '8'
  | _ => '9'

def natCharsF : Nat → Nat → List Char
  | 0, _ => []
  | f + 1, n =>
    if n < 10 then [digitChar n]
    else natCharsF f (n / 10) ++ [digitChar (n % 10)]

/-- Decimal rendering of a natural number (models `n.to_string()` in Rust). -/
def natChars (n : Nat) : List Char :=
  natCharsF (n + 1) n

/-- Numeric value of a list of decimal digit characters (helper for proofs). -/
def parseDigits (l : List Char) : Nat :=
  l.foldl (fun a c => 10 * a + (c.toNat - 48)) 0

/-- A character is a decimal digit produced by `digitChar`. -/
def IsDigitCh (c : Char) : Prop := ∃ d, d < 10 ∧ c = digitChar d

/-! ### Zero padding (models `{:04}` and `{:02}` format specifiers) -/
def pad (k : Nat) (l : List Char) : List Char :=
  List.replicate (k - l.length) '0' ++ l

/-! ### Lexicographic order on character lists

Models Rust's `Ord` on `String` (byte-wise lexicographic on the UTF-8
encoding, which equals code-point-wise lexicographic order).
-/
def charListLe : List Char → List Char → Bool
  | [], _ => true
  | _ :: _, [] => false
  | a :: as, b :: bs =>
    if a.toNat < b.toNat then true
    else if b.toNat < a.toNat then false
    else charListLe as bs

/-! ### Dates and posts (src/post.rs)

`Date` models `chrono::NaiveDate` as a plain year/month/day record.  `Date.display`
models its `Display` implementation with format `%Y-%m-%d` (zero-padded 4-2-2),
which is the format that appears in `collect_posts`'s sort key and in the
serialized TOML header.  Dates that reach `Post.date` are parsed from a TOML
RFC 3339 `full-date`, so their components always satisfy `Date.FixedWidth`.
-/
structure Date where
  year : Nat
  month : Nat
  day : Nat
deriving DecidableEq, Repr

/-- Widths guaranteed by the TOML date syntax (4-digit year, 2-digit month/day). -/
def Date.FixedWidth (d : Date) : Prop :=
  d.year < 10000 ∧ d.month < 100 ∧ d.day < 100

/-- Calendar validity as guaranteed for `Utc::today()` values (leniently, a day
is only required to lie in `1..=31`). -/
def Date.Valid (d : Date) : Prop :=
  d.year < 10000 ∧ 1 ≤ d.month ∧ d.month ≤ 12 ∧ 1 ≤ d.day ∧ d.day ≤ 31

/-- The `%Y-%m-%d` rendering of a date (e.g. `2026-10-12`). -/
def Date.display (d : Date) : List Char :=
  pad 4 (natChars d.year) ++ '-' :: (pad 2 (natChars d.month) ++ '-' :: pad 2 (natChars d.day))

/-- One post record (the `Post` struct of src/post.rs). -/
structure Post where
  name : List Char
  title : List Char
  date : Date
  tags : List (List Char)
  content : List Char
  top : Option Nat
deriving DecidableEq, Repr

/-! ### The post ordering of `collect_posts` (src/post.rs lines 149-162)

The source sorts with `posts.sort_by_key(|post| format!("{}-{}", &post.date, &post.title))`
followed by `posts.reverse()`.  Rust's `sort_by_key` is a stable ascending sort;
`List.mergeSort` is the canonical stable sort, so it models it exactly.
-/
/-- The sort key `format!("{}-{}", &post.date, &post.title)`. -/
def sortKey (p : Post) : List Char :=
  p.date.display ++ '-' :: p.title

def postLe (p q : Post) : Bool :=
  charListLe (sortKey p) (sortKey q)

/-- The ordering step of `collect_posts`: stable sort by `sortKey` ascending,
then reverse. -/
def sortPosts (posts : List Post) : List Post :=
  (posts.mergeSort postLe).reverse

/-! The spec-side ordering, stated from the spec's words: a stable sort by the
composite key `(date, title)` ascending (date compared as a calendar date,
title lexicographically), then the sequence is reversed. -/
/-- Spec-side comparison on the composite key `(date, title)`. -/
def specLe (p q : Post) : Bool :=
  if p.date = q.date then charListLe p.title q.title
  else if p.date.year < q.date.year then true
  else if q.date.year < p.date.year then false
  else if p.date.month < q.date.month then true
  else if q.date.month < p.date.month then false
  else decide (p.date.day < q.date.day)

/-- Spec-side ordering: stable sort by `(date, title)` ascending, then reverse. -/
def specSortPosts (posts : List Post) : List Post :=
  (posts.mergeSort specLe).reverse

/-! ### The tag index (src/post.rs lines 164-174)

`collect_tags` pushes every tag of every post in order, then `sort_unstable`s
and `dedup`s.  `dedupRun` models `Vec::dedup` (removes consecutive repeats,
keeping the first of each run).  `sort_unstable` produces some sorted
permutation; since elements here are compared by their full value, every sorted
permutation of a given list of strings is the same list, so the stable
`List.mergeSort` models it exactly.
-/
def dedupRun : List (List Char) → List (List Char)
  | [] => []
  | [a] => [a]
  | a :: b :: t => if a = b then dedupRun (a :: t) else a :: dedupRun (b :: t)

def collect_tags (posts : List Post) : List (List Char) :=
  dedupRun ((posts.flatMap Post.tags).mergeSort charListLe)

/-! ### The post file format (src/post.rs lines 55-162)

A post file is `---\n<toml header>---\n\n<body>`.  `Post.read` embeds
`Post::read`; the file system is abstracted by passing the file name and the
file text.  Rust panics (`expect` calls and out-of-range slicing) are modelled
by the `fatal` outcome of `ReadOutcome`, `Err` returns by `err`.

The external `toml` and `chrono` crates are modelled by `tomlHeaderParse`,
`tomlParseDate` and `chronoParseDate`; they faithfully cover the header
fragment this program itself serializes and reads back (string title without
escapes, RFC 3339 full-date, a flat list of quoted tag strings).
-/
def TOP_TAG : List Char := "<!-- top -->".toList

def dashes3 : List Char := ['-', '-', '-']

/-- The `PostHeader` struct, with the TOML datetime specialized to its date
component (the only form this program reads or writes). -/
structure PostHeader where
  title : List Char
  date : Date
  tags : List (List Char)
deriving DecidableEq, Repr

/-- The post-loading errors of src/error.rs (library error payloads reduced to
an opaque code). -/
inductive PError where
  | io (code : Nat)
  | chronoParse (code : Nat)
  | readPostHeader (path : List Char) (code : Nat)
deriving DecidableEq, Repr

/-- Outcome of running Rust code that may return `Err` or panic. -/
inductive ReadOutcome (α : Type) where
  | ok (val : α)
  | err (e : PError)
  | fatal (msg : List Char)
deriving DecidableEq, Repr

def ReadOutcome.isErr {α : Type} : ReadOutcome α → Bool
  | .err _ => true
  | _ => false

/-- Tests whether the first list is an initial segment of the second. -/
def leads : List Char → List Char → Bool
  | [], _ => true
  | _ :: _, [] => false
  | a :: as, b :: bs => a = b && leads as bs

/-- Models `str::find` for a literal pattern: index of the first occurrence. -/
def findSub (pat : List Char) : List Char → Option Nat
  | [] => if pat = [] then some 0 else none
  | l@(_ :: t) => if leads pat l then some 0 else (findSub pat t).map (· + 1)

/-- Splits at the first occurrence of `stop`: the part before it and the part
after it. -/
def takeUntil (stop : Char) : List Char → Option (List Char × List Char)
  | [] => none
  | c :: t =>
    if c = stop then some ([], t)
    else (takeUntil stop t).map (fun p => (c :: p.1, p.2))

/-- Expects the literal `lit` at the front and returns the remainder. -/
def dropLit : List Char → List Char → Option (List Char)
  | [], l => some l
  | _ :: _, [] => none
  | c :: ct, d :: dt => if c = d then dropLit ct dt else none

/-- Models `Path::file_stem`: the file name up to its last extension. -/
def fileStem (p : List Char) : List Char :=
  match takeUntil '.' p.reverse with
  | none => p
  | some (_, revStem) => if revStem = [] then p else revStem.reverse

def isDigitB (c : Char) : Bool := 48 ≤ c.toNat && c.toNat ≤ 57

/-- Parses `YYYY-MM-DD`.  Models both the `toml` crate's RFC 3339 full-date
parser and (composed with the `{:04}-{:02}-{:02}` re-rendering) chrono's
`NaiveDate::parse_from_str` with `%Y-%m-%d`, which agree on such inputs; day
validation is lenient (`1..=31`). -/
def parseYmd (s : List Char) : Option Date := do
  let p1 ← takeUntil '-' s
  let p2 ← takeUntil '-' p1.2
  if p1.1.length = 4 ∧ p2.1.length = 2 ∧ p2.2.length = 2
      ∧ p1.1.all isDigitB = true ∧ p2.1.all isDigitB = true ∧ p2.2.all isDigitB = true
      ∧ 1 ≤ parseDigits p2.1 ∧ parseDigits p2.1 ≤ 12
      ∧ 1 ≤ parseDigits p2.2 ∧ parseDigits p2.2 ≤ 31 then
    some ⟨parseDigits p1.1, parseDigits p2.1, parseDigits p2.2⟩
  else none

/-- The `toml` crate's date parser (RFC 3339 full-date). -/
def tomlParseDate (s : List Char) : Option Date := parseYmd s

/-- chrono's `NaiveDate::parse_from_str(_, "%Y-%m-%d")` as applied in
`Post::read` (its input is always a re-rendered TOML date). -/
def chronoParseDate (s : List Char) : Option Date := parseYmd s

/-- Parses a TOML array of quoted strings (the text between the brackets of
`tags = [...]`, e.g. `"a", "b"`), fuel-structural for kernel evaluation. -/
def parseTagsF : Nat → List Char → Option (List (List Char))
  | 0, _ => none
  | _ + 1, [] => some []
  | f + 1, s => do
    let s1 ← dropLit ['"'] s
    let q ← takeUntil '"' s1
    match q.2 with
    | [] => some [q.1]
    | _ => do
      let s2 ← dropLit [',', ' '] q.2
      let rest ← parseTagsF f s2
      some (q.1 :: rest)

def parseTags (s : List Char) : Option (List (List Char)) :=
  parseTagsF (s.length + 1) s

/-- Models `toml::from_str::<PostHeader>` on the header shape this program
serializes: `title = "..."`, `date = YYYY-MM-DD`, `tags = [...]` in struct
order, one per line. -/
def tomlHeaderParse (l : List Char) : Option PostHeader := do
  let l1 ← dropLit "title = \"".toList l
  let q1 ← takeUntil '"' l1
  let l2 ← dropLit "\ndate = ".toList q1.2
  let q2 ← takeUntil '\n' l2
  let date ← tomlParseDate q2.1
  let l3 ← dropLit "tags = [".toList q2.2
  let q3 ← takeUntil ']' l3
  let tags ← parseTags q3.1
  let l4 ← dropLit "\n".toList q3.2
  if l4 = [] then some ⟨q1.1, date, tags⟩ else none

def invalidHeaderMsg : List Char := "invalid post header".toList

def sliceMsg : List Char := "byte index out of bounds".toList

/-- Embeds `Post::read` (src/post.rs lines 112-137). -/
def Post.read (path : List Char) (contents : List Char) : ReadOutcome Post :=
  if contents.length < 4 then .fatal sliceMsg
  else
    match findSub dashes3 (contents.drop 4) with
    | none => .fatal invalidHeaderMsg
    | some i =>
      match tomlHeaderParse ((contents.drop 4).take i) with
      | none => .err (.readPostHeader path 0)
      | some h =>
        if contents.length < (i + 4) + 5 then .fatal sliceMsg
        else
          match chronoParseDate (Date.display h.date) with
          | none => .err (.chronoParse 0)
          | some date =>
            .ok { name := fileStem path, title := h.title, date := date,
                  tags := h.tags, content := contents.drop ((i + 4) + 5),
                  top := findSub TOP_TAG (contents.drop ((i + 4) + 5)) }

/-- Reads every directory entry in enumeration order (the loop of
`collect_posts`, src/post.rs lines 149-158); `?` propagation and panics
short-circuit. -/
def readAll : List (List Char × List Char) → ReadOutcome (List Post)
  | [] => .ok []
  | (p, c) :: rest =>
    match Post.read p c with
    | .ok post =>
      match readAll rest with
      | .ok ps => .ok (post :: ps)
      | .err e => .err e
      | .fatal m => .fatal m
    | .err e => .err e
    | .fatal m => .fatal m

/-- Embeds `collect_posts` (src/post.rs lines 149-162): read all entries, then
sort by the string key and reverse. -/
def collect_posts (files : List (List Char × List Char)) : ReadOutcome (List Post) :=
  match readAll files with
  | .ok ps => .ok (sortPosts ps)
  | .err e => .err e
  | .fatal m => .fatal m

/-- The `Posts` repository struct (root directory, ordered posts, tag index). -/
structure PostsState where
  root : List Char
  posts : List Post
  tags : List (List Char)
deriving DecidableEq, Repr

/-- Embeds `Posts::new` (src/post.rs lines 41-49). -/
def Posts.new (root : List Char) (files : List (List Char × List Char)) :
    ReadOutcome PostsState :=
  match collect_posts files with
  | .ok ps => .ok { root := root, posts := ps, tags := collect_tags ps }
  | .err e => .err e
  | .fatal m => .fatal m

/-- Result of `Posts::create_post`: the returned post, the updated repository
state, and the file written to disk (name and text). -/
structure CreatedPost where
  post : Post
  state : PostsState
  filePath : List Char
  fileContents : List Char
deriving DecidableEq, Repr

/-- Models `toml::to_string` on the header `create_post` builds (empty title,
today's date, no tags). -/
def newPostHeaderChars (d : Date) : List Char :=
  "title = \"\"\ndate = ".toList ++ d.display ++ "\ntags = []\n".toList

/-- Embeds `Posts::create_post` (src/post.rs lines 55-90).  `today` models
`Utc::today().naive_utc()`; the file write is returned explicitly. -/
def create_post (st : PostsState) (today : Date) : CreatedPost :=
  let next := st.posts.length
  let post : Post := { name := natChars next, title := [], date := today,
                       tags := [], content := [], top := none }
  { post := post
    state := { st with posts := st.posts ++ [post] }
    filePath := natChars next ++ ".md".toList
    fileContents := "---\n".toList ++ newPostHeaderChars today ++ "---\n\n".toList ++ TOP_TAG }

/-! ### The Markdown engine (src/render.rs)

`Event` models the `pulldown_cmark::Event` variants the rewrite passes
inspect; every other event or tag is carried opaquely (`other` / `Tag.other`),
which the passes treat exactly like the source's catch-all `_` match arms.
`end'` models `Event::End` (`end` is a Lean keyword).  The pulldown parser and
the `push_html` serializer are external collaborators, modelled as opaque
functions carried by the `MarkdownM` record.
-/
inductive CodeBlockKind where
  | indented
  | fenced (info : List Char)
deriving DecidableEq, Repr

inductive Tag where
  | paragraph
  | codeBlock (kind : CodeBlockKind)
  | footnoteDefinition (label : List Char)
  | other (id : Nat)
deriving DecidableEq, Repr

inductive Event where
  | start (t : Tag)
  | end' (t : Tag)
  | text (s : List Char)
  | code (s : List Char)
  | html (s : List Char)
  | footnoteReference (label : List Char)
  | softBreak
  | hardBreak
  | rule
deriving DecidableEq, Repr

/-- `label.starts_with('s')`. -/
def startsS : List Char → Bool
  | 's' :: _ => true
  | _ => false

/-- Embeds `collect_sidenotes`'s loop state (src/render.rs lines 407-428):
`inNote` is the `in_note` flag, `buf` the accumulator. -/
def collect_sidenotesAux : Bool → List Char → List Event → List (List Char)
  | _, _, [] => []
  | inNote, buf, e :: rest =>
    match e with
    | .start (.footnoteDefinition _) => collect_sidenotesAux true buf rest
    | .end' (.footnoteDefinition _) => buf :: collect_sidenotesAux false [] rest
    | .text t =>
      if inNote then collect_sidenotesAux inNote (buf ++ t) rest
      else collect_sidenotesAux inNote buf rest
    | .softBreak =>
      if inNote then collect_sidenotesAux inNote (buf ++ [' ']) rest
      else collect_sidenotesAux inNote buf rest
    | _ => collect_sidenotesAux inNote buf rest

/-- Embeds `collect_sidenotes` (src/render.rs lines 407-428). -/
def collect_sidenotes (events : List Event) : List (List Char) :=
  (collect_sidenotesAux false [] events).reverse

/-- The fixed sidenote wrapper of the Stage-3 rewrite. -/
def sidenoteHtml (note : List Char) : List Char :=
  "<span class=\"sidenote-number\"><small class=\"sidenote\">".toList
    ++ note ++ "</small></span>".toList

/-- Embeds the loop of `notes` (src/render.rs lines 362-405): `inNote` and
`inSide` are the `in_note` / `in_sidenote` flags, `sns` the sidenote vector
(popped from the end, as `Vec::pop` does). -/
def notesAux : Bool → Bool → List (List Char) → List Event → List Event
  | _, _, _, [] => []
  | inNote, inSide, sns, e :: rest =>
    match e with
    | .footnoteReference label =>
      if startsS label then
        match sns.getLast? with
        | some note =>
          .html (sidenoteHtml note) :: notesAux inNote inSide sns.dropLast rest
        | none => notesAux inNote inSide sns.dropLast rest
      else .footnoteReference label :: notesAux inNote inSide sns rest
    | .start (.footnoteDefinition label) =>
      if startsS label then notesAux true true sns rest
      else .html ("<p><sup>".toList ++ label ++ "</sup> ".toList)
        :: notesAux true inSide sns rest
    | .end' (.footnoteDefinition label) =>
      if startsS label then notesAux false false sns rest
      else .html "</p>".toList :: notesAux false inSide sns rest
    | .start .paragraph =>
      if inNote then notesAux inNote inSide sns rest
      else .start .paragraph :: notesAux inNote inSide sns rest
    | .end' .paragraph =>
      if inNote then notesAux inNote inSide sns rest
      else .end' .paragraph :: notesAux inNote inSide sns rest
    | .text t =>
      if inSide then notesAux inNote inSide sns rest
      else .text t :: notesAux inNote inSide sns rest
    | _ => e :: notesAux inNote inSide sns rest

/-- Embeds `notes` (src/render.rs lines 362-405). -/
def notes (events : List Event) : List Event :=
  notesAux false false (collect_sidenotes events) events

/-- The syntax-definition set: lookup by extension plus the plain-text
fallback (models `syntect::parsing::SyntaxSet`; a syntax is identified by an
opaque name). -/
structure SynSet where
  findByExtension : List Char → Option (List Char)
  plainText : List Char

/-- The syntax chosen for a code block's language tag in `syntax_hl`
(src/render.rs lines 330-337). -/
def chooseHlSyn (ss : SynSet) (lang : List Char) : List Char :=
  if lang.isEmpty then ss.plainText
  else
    match ss.findByExtension lang with
    | some syn => syn
    | none => ss.plainText

def langOf : CodeBlockKind → List Char
  | .fenced s => s
  | .indented => []

/-- Embeds the loop of `syntax_hl` (src/render.rs lines 314-360).  `hl` models
`syntect::html::highlighted_html_for_string` applied to the buffered text and
the chosen syntax; `buf` is `to_highlight`, `inCode` the `in_code_block` flag.
Errors of the highlighting engine abort the whole pass. -/
def synHl (ss : SynSet) (hl : List Char → List Char → Except Nat (List Char)) :
    List Event → List Char → Bool → Except Nat (List Event)
  | [], _, _ => .ok []
  | e :: rest, buf, inCode =>
    match e with
    | .start (.codeBlock _) => synHl ss hl rest buf true
    | .end' (.codeBlock kind) =>
      if inCode then
        match hl buf (chooseHlSyn ss (langOf kind)) with
        | .ok h =>
          match synHl ss hl rest [] false with
          | .ok out => .ok (.html h :: out)
          | .error err => .error err
        | .error err => .error err
      else
        match synHl ss hl rest buf inCode with
        | .ok out => .ok (.end' (.codeBlock kind) :: out)
        | .error err => .error err
    | .text t =>
      if inCode then synHl ss hl rest (buf ++ t) inCode
      else
        match synHl ss hl rest buf inCode with
        | .ok out => .ok (.text t :: out)
        | .error err => .error err
    | _ =>
      match synHl ss hl rest buf inCode with
      | .ok out => .ok (e :: out)
      | .error err => .error err

/-- `syntax_hl` run from its initial state. -/
def synHlRun (ss : SynSet) (hl : List Char → List Char → Except Nat (List Char))
    (events : List Event) : Except Nat (List Event) :=
  synHl ss hl events [] false

/-- The `Markdown` renderer state: the external parser and serializer, the
preloaded syntax set and the highlighting engine (closed over the preloaded
theme). -/
structure MarkdownM where
  parse : List Char → List Event
  pushHtml : List Event → List Char
  synSet : SynSet
  hl : List Char → List Char → Except Nat (List Char)

/-- Embeds `Markdown::render_html` (src/render.rs lines 304-311): parse, the
Stage-1 highlighting pass, the Stage-2/3 footnote passes, serialize. -/
def render_html (m : MarkdownM) (content : List Char) : Except Nat (List Char) :=
  match synHlRun m.synSet m.hl (m.parse content) with
  | .ok events => .ok (m.pushHtml (notes events))
  | .error e => .error e

/-! ### Document segments

For stating structural properties of the footnote passes, a document is viewed
as a sequence of segments: loose events and whole footnote-definition blocks.
-/
def isFDBoundary : Event → Bool
  | .start (.footnoteDefinition _) => true
  | .end' (.footnoteDefinition _) => true
  | _ => false

def isRefEvent : Event → Bool
  | .footnoteReference _ => true
  | _ => false

/-- Events the Stage-3 rewrite suppresses inside a sidenote definition:
paragraph boundaries and text runs. -/
def suppressedInSidenote : Event → Bool
  | .start .paragraph => true
  | .end' .paragraph => true
  | .text _ => true
  | _ => false

inductive Seg where
  | out (e : Event)
  | note (label : List Char) (body : List Event)
deriving DecidableEq, Repr

def Seg.events : Seg → List Event
  | .out e => [e]
  | .note label body =>
    .start (.footnoteDefinition label) :: (body ++ [.end' (.footnoteDefinition label)])

def segsEvents (segs : List Seg) : List Event :=
  segs.flatMap Seg.events

/-- Well-formedness: no nested footnote-definition boundaries. -/
def Seg.Wf : Seg → Prop
  | .out e => isFDBoundary e = false
  | .note _ body => ∀ e ∈ body, isFDBoundary e = false

instance : (s : Seg) → Decidable s.Wf
  | .out e => inferInstanceAs (Decidable (isFDBoundary e = false))
  | .note _ body => inferInstanceAs (Decidable (∀ e ∈ body, isFDBoundary e = false))

instance : (d : Date) → Decidable d.Valid := fun d =>
  inferInstanceAs (Decidable (d.year < 10000 ∧ 1 ≤ d.month ∧ d.month ≤ 12
    ∧ 1 ≤ d.day ∧ d.day ≤ 31))

instance : (d : Date) → Decidable d.FixedWidth := fun d =>
  inferInstanceAs (Decidable (d.year < 10000 ∧ d.month < 100 ∧ d.day < 100))

/-- Text of a definition body as the pre-scan flattens it: text runs
concatenated, soft breaks as single spaces, everything else skipped. -/
def flattenText : List Event → List Char
  | [] => []
  | .text t :: rest => t ++ flattenText rest
  | .softBreak :: rest => ' ' :: flattenText rest
  | _ :: rest => flattenText rest

/-- The flattened texts of all footnote-definition segments, in document
order, regardless of their labels. -/
def segNoteTexts : List Seg → List (List Char)
  | [] => []
  | .out _ :: rest => segNoteTexts rest
  | .note _ body :: rest => flattenText body :: segNoteTexts rest

/-! ### Concrete instances used by counterexamples and witnesses -/
def cDate : Date := ⟨2020, 1, 1⟩

def cContents : List Char :=
  "---\ntitle = \"\"\ndate = 2020-01-01\ntags = []\n---\n\n<!-- top -->".toList

def postA : Post := ⟨['a'], [], cDate, [], TOP_TAG, some 0⟩

def postB : Post := ⟨['b'], [], cDate, [], TOP_TAG, some 0⟩

def fileA : List Char × List Char := ("a.md".toList, cContents)

def fileB : List Char × List Char := ("b.md".toList, cContents)

def badFile : List Char := "---\ntitle = \"\"\n".toList

def ssW : SynSet := ⟨fun _ => none, "plain".toList⟩

def mW : MarkdownM :=
  ⟨fun _ => [.start (.codeBlock (.fenced "zz".toList)),
             .end' (.codeBlock (.fenced "zz".toList))],
   fun _ => [], ssW, fun _ _ => .error 7⟩

def segsW : List Seg :=
  [.note "s1".toList [.start .paragraph, .text "hello".toList, .softBreak,
     .text "world".toList, .end' .paragraph],
   .out (.text "x".toList),
   .note "f2".toList [.text "note".toList]]

def bodyW : List Event :=
  [.start .paragraph, .text "a".toList, .code "x".toList, .end' .paragraph]

theorem digitChar_toNat {d : Nat} (h : d < 10) : (digitChar d).toNat = 48 + d := by
  interval_cases d <;> rfl

theorem digitChar_inj {d e : Nat} (hd : d < 10) (he : e < 10)
    (h : digitChar d = digitChar e) : d = e := by
  have := congrArg Char.toNat h
  rw [digitChar_toNat hd, digitChar_toNat he] at this
  omega

theorem natCharsF_fuel : ∀ (f g n : Nat), n < f → n < g → natCharsF f n = natCharsF g n := by
  intro f
  induction f using Nat.strong_induction_on with
  | _ f ih =>
    intro g n hf hg
    cases f with
    | zero => omega
    | succ f =>
      cases g with
      | zero => omega
      | succ g =>
        simp only [natCharsF]
        by_cases h : n < 10
        · simp [h]
        · simp only [if_neg h]
          have hdiv : n / 10 < n := Nat.div_lt_self (by omega) (by omega)
          rw [ih f (Nat.lt_succ_self f) g (n / 10) (by omega) (by omega)]

theorem natChars_eq (n : Nat) :
    natChars n = if n < 10 then [digitChar n] else natChars (n / 10) ++ [digitChar (n % 10)] := by
  show natCharsF (n + 1) n = _
  simp only [natCharsF]
  by_cases h : n < 10
  · simp [h]
  · simp only [if_neg h]
    have hdiv : n / 10 < n := Nat.div_lt_self (by omega) (by omega)
    rw [natCharsF_fuel n (n / 10 + 1) (n / 10) (by omega) (by omega)]
    rfl

theorem natChars_ne_nil (n : Nat) : natChars n ≠ [] := by
  rw [natChars_eq]
  split <;> simp

theorem mem_natChars_digit : ∀ (n : Nat), ∀ c ∈ natChars n, IsDigitCh c := by
  intro n
  induction n using Nat.strong_induction_on with
  | _ n ih =>
    intro c hc
    rw [natChars_eq] at hc
    by_cases h : n < 10
    · simp only [if_pos h, List.mem_singleton] at hc
      exact ⟨n, h, hc⟩
    · simp only [if_neg h, List.mem_append, List.mem_singleton] at hc
      rcases hc with hc | hc
      · exact ih (n / 10) (Nat.div_lt_self (by omega) (by omega)) c hc
      · exact ⟨n % 10, Nat.mod_lt _ (by omega), hc⟩

theorem parseDigits_from (l : List Char) (a : Nat) :
    l.foldl (fun a c => 10 * a + (c.toNat - 48)) a = a * 10 ^ l.length + parseDigits l := by
  induction l generalizing a with
  | nil => simp [parseDigits]
  | cons c t ih =>
    simp only [List.foldl_cons, List.length_cons, parseDigits]
    rw [ih (10 * a + (c.toNat - 48)), ih (10 * 0 + (c.toNat - 48))]
    simp only [parseDigits]
    ring

theorem parseDigits_cons (c : Char) (t : List Char) :
    parseDigits (c :: t) = (c.toNat - 48) * 10 ^ t.length + parseDigits t := by
  simp only [parseDigits, List.foldl_cons]
  rw [parseDigits_from t (10 * 0 + (c.toNat - 48))]
  simp only [parseDigits]
  ring

theorem parseDigits_append (a b : List Char) :
    parseDigits (a ++ b) = parseDigits a * 10 ^ b.length + parseDigits b := by
  have h : parseDigits (a ++ b)
      = b.foldl (fun a c => 10 * a + (c.toNat - 48)) (parseDigits a) := by
    simp [parseDigits, List.foldl_append]
  rw [h, parseDigits_from]

theorem parseDigits_natChars : ∀ (n : Nat), parseDigits (natChars n) = n := by
  intro n
  induction n using Nat.strong_induction_on with
  | _ n ih =>
    rw [natChars_eq]
    by_cases h : n < 10
    · simp only [if_pos h]
      rw [parseDigits_cons]
      simp [parseDigits, digitChar_toNat h]
    · simp only [if_neg h]
      rw [parseDigits_append, ih (n / 10) (Nat.div_lt_self (by omega) (by omega))]
      have : parseDigits [digitChar (n % 10)] = n % 10 := by
        rw [parseDigits_cons]
        simp [parseDigits, digitChar_toNat (Nat.mod_lt n (by omega))]
      simp only [List.length_cons, List.length_nil, this]
      omega

theorem natChars_length_le : ∀ (n k : Nat), 1 ≤ k → n < 10 ^ k → (natChars n).length ≤ k := by
  intro n
  induction n using Nat.strong_induction_on with
  | _ n ih =>
    intro k hk hn
    rw [natChars_eq]
    by_cases h : n < 10
    · simp only [if_pos h, List.length_singleton]
      omega
    · simp only [if_neg h, List.length_append, List.length_singleton]
      have hk2 : 2 ≤ k := by
        by_contra hcon
        have : k = 1 := by omega
        subst this
        simp at hn
        omega
      have hdivlt : n / 10 < 10 ^ (k - 1) := by
        rw [Nat.div_lt_iff_lt_mul (by omega)]
        calc n < 10 ^ k := hn
        _ = 10 ^ (k - 1) * 10 := by
              rw [← Nat.pow_succ]
              congr 1
              omega
      have := ih (n / 10) (Nat.div_lt_self (by omega) (by omega)) (k - 1) (by omega) hdivlt
      omega

theorem parseDigits_lt : ∀ (l : List Char), (∀ c ∈ l, IsDigitCh c) →
    parseDigits l < 10 ^ l.length := by
  intro l
  induction l with
  | nil => intro _; simp [parseDigits]
  | cons c t ih =>
    intro h
    rw [parseDigits_cons]
    have hih := ih (fun x hx => h x (List.mem_cons_of_mem c hx))
    obtain ⟨d, hd, rfl⟩ := h c (List.mem_cons_self c t)
    rw [digitChar_toNat hd]
    simp only [List.length_cons, Nat.pow_succ]
    have h1 : (48 + d - 48) = d := by omega
    rw [h1]
    calc d * 10 ^ t.length + parseDigits t
        < d * 10 ^ t.length + 10 ^ t.length := by omega
      _ = (d + 1) * 10 ^ t.length := by ring
      _ ≤ 10 * 10 ^ t.length := by
          apply Nat.mul_le_mul_right
          omega
      _ = 10 ^ t.length * 10 := by ring

theorem pad_length {k : Nat} {l : List Char} (h : l.length ≤ k) : (pad k l).length = k := by
  simp [pad]
  omega

theorem parseDigits_replicate_zero (m : Nat) : parseDigits (List.replicate m '0') = 0 := by
  induction m with
  | zero => rfl
  | succ m ih =>
    rw [List.replicate_succ, parseDigits_cons, ih]
    simp

theorem parseDigits_pad (k : Nat) (l : List Char) : parseDigits (pad k l) = parseDigits l := by
  simp [pad, parseDigits_append, parseDigits_replicate_zero]

theorem mem_pad_digit {k : Nat} {l : List Char} (h : ∀ c ∈ l, IsDigitCh c) :
    ∀ c ∈ pad k l, IsDigitCh c := by
  intro c hc
  simp only [pad, List.mem_append, List.mem_replicate] at hc
  rcases hc with ⟨-, rfl⟩ | hc
  · exact ⟨0, by omega, rfl⟩
  · exact h c hc

/-- The padded decimal rendering of `n < 10 ^ k` has length exactly `k` (for `1 ≤ k`). -/
theorem pad_natChars_length {n k : Nat} (hk : 1 ≤ k) (hn : n < 10 ^ k) :
    (pad k (natChars n)).length = k :=
  pad_length (natChars_length_le n k hk hn)

theorem parseDigits_pad_natChars (k n : Nat) : parseDigits (pad k (natChars n)) = n := by
  rw [parseDigits_pad, parseDigits_natChars]

theorem charToNat_inj {a b : Char} (h : a.toNat = b.toNat) : a = b := by
  have := congrArg Char.ofNat h
  simpa using this

theorem charListLe_refl (l : List Char) : charListLe l l = true := by
  induction l with
  | nil => rfl
  | cons c t ih => simp [charListLe, ih]

theorem charListLe_total (a b : List Char) : charListLe a b || charListLe b a := by
  induction a generalizing b with
  | nil => simp [charListLe]
  | cons c t ih =>
    cases b with
    | nil => simp [charListLe]
    | cons d u =>
      simp only [charListLe]
      rcases Nat.lt_trichotomy c.toNat d.toNat with h | h | h
      · simp [h]
      · simp [h, Nat.lt_irrefl, ih u]
      · simp [h, Nat.lt_asymm h]

theorem charListLe_antisymm : ∀ {a b : List Char},
    charListLe a b = true → charListLe b a = true → a = b := by
  intro a
  induction a with
  | nil =>
    intro b _ hba
    cases b with
    | nil => rfl
    | cons d u => simp [charListLe] at hba
  | cons c t ih =>
    intro b hab hba
    cases b with
    | nil => simp [charListLe] at hab
    | cons d u =>
      simp only [charListLe] at hab hba
      rcases Nat.lt_trichotomy c.toNat d.toNat with h | h | h
      · simp [h, Nat.lt_asymm h] at hba
      · have hcd : c = d := charToNat_inj h
        subst hcd
        simp only [Nat.lt_irrefl, if_false] at hab hba
        rw [ih hab hba]
      · simp [h, Nat.lt_asymm h] at hab

theorem charListLe_trans : ∀ {a b c : List Char},
    charListLe a b = true → charListLe b c = true → charListLe a c = true := by
  intro a
  induction a with
  | nil => intro b c _ _; rfl
  | cons x t ih =>
    intro b c hab hbc
    cases b with
    | nil => simp [charListLe] at hab
    | cons y u =>
      cases c with
      | nil => simp [charListLe] at hbc
      | cons z v =>
        simp only [charListLe] at hab hbc ⊢
        by_cases hxy : x.toNat < y.toNat
        · by_cases hyz : y.toNat < z.toNat
          · simp [show x.toNat < z.toNat by omega]
          · by_cases hzy : z.toNat < y.toNat
            · simp [hxy, hyz, hzy] at hbc
            · have : y.toNat = z.toNat := by omega
              simp [show x.toNat < z.toNat by omega]
        · by_cases hyx : y.toNat < x.toNat
          · simp [hxy, hyx] at hab
          · have hxyeq : x.toNat = y.toNat := by omega
            by_cases hyz : y.toNat < z.toNat
            · simp [show x.toNat < z.toNat by omega]
            · by_cases hzy : z.toNat < y.toNat
              · simp [hyz, hzy] at hbc
              · have hyzeq : y.toNat = z.toNat := by omega
                simp only [hxy, hyx, if_false] at hab
                simp only [hyz, hzy, if_false] at hbc
                simp [show ¬ x.toNat < z.toNat by omega, show ¬ z.toNat < x.toNat by omega,
                  ih hab hbc]

/-- Comparing equal-length lists of decimal digits lexicographically is the same
as comparing their numeric values. -/
theorem charListLe_digits : ∀ {l₁ l₂ : List Char}, l₁.length = l₂.length →
    (∀ c ∈ l₁, IsDigitCh c) → (∀ c ∈ l₂, IsDigitCh c) →
    (charListLe l₁ l₂ = true ↔ parseDigits l₁ ≤ parseDigits l₂) := by
  intro l₁
  induction l₁ with
  | nil =>
    intro l₂ hlen _ _
    cases l₂ with
    | nil => simp [charListLe, parseDigits]
    | cons d u => simp at hlen
  | cons c t ih =>
    intro l₂ hlen h₁ h₂
    cases l₂ with
    | nil => simp at hlen
    | cons d u =>
      simp only [List.length_cons, Nat.succ_inj] at hlen
      have ht : ∀ x ∈ t, IsDigitCh x := fun x hx => h₁ x (List.mem_cons_of_mem c hx)
      have hu : ∀ x ∈ u, IsDigitCh x := fun x hx => h₂ x (List.mem_cons_of_mem d hx)
      have hpt : parseDigits t < 10 ^ t.length := parseDigits_lt t ht
      have hpu : parseDigits u < 10 ^ u.length := parseDigits_lt u hu
      obtain ⟨dc, hdclt, hdc⟩ := h₁ c (List.mem_cons_self c t)
      obtain ⟨dd, hddlt, hdd⟩ := h₂ d (List.mem_cons_self d u)
      have hcNat : c.toNat = 48 + dc := by rw [hdc]; exact digitChar_toNat hdclt
      have hdNat : d.toNat = 48 + dd := by rw [hdd]; exact digitChar_toNat hddlt
      rw [parseDigits_cons, parseDigits_cons, charListLe, hcNat, hdNat, hlen]
      rcases Nat.lt_trichotomy dc dd with hcmp | hcmp | hcmp
      · simp only [show 48 + dc < 48 + dd by omega, if_pos]
        constructor
        · intro _
          have h48c : 48 + dc - 48 = dc := by omega
          have h48d : 48 + dd - 48 = dd := by omega
          rw [h48c, h48d, ← hlen]
          apply Nat.le_of_lt
          calc dc * 10 ^ t.length + parseDigits t
              < dc * 10 ^ t.length + 10 ^ t.length := by omega
            _ = (dc + 1) * 10 ^ t.length := by ring
            _ ≤ dd * 10 ^ t.length := Nat.mul_le_mul_right _ (by omega)
            _ ≤ dd * 10 ^ t.length + parseDigits u := Nat.le_add_right _ _
        · intro _; trivial
      · subst hcmp
        have hcd : c = d := by rw [hdc, hdd]
        simp only [Nat.lt_irrefl, if_false]
        rw [ih hlen ht hu]
        omega
      · simp only [show ¬ (48 + dc < 48 + dd) by omega, if_neg, not_false_iff,
          show 48 + dd < 48 + dc by omega, if_pos]
        constructor
        · intro hfalse; cases hfalse
        · intro hle
          exfalso
          have h48c : 48 + dc - 48 = dc := by omega
          have h48d : 48 + dd - 48 = dd := by omega
          rw [h48c, h48d, ← hlen] at hle
          have : dd * 10 ^ t.length + parseDigits u
              < dc * 10 ^ t.length + parseDigits t := by
            calc dd * 10 ^ t.length + parseDigits u
                < dd * 10 ^ t.length + 10 ^ t.length := by rw [hlen]; omega
              _ = (dd + 1) * 10 ^ t.length := by ring
              _ ≤ dc * 10 ^ t.length := Nat.mul_le_mul_right _ (by omega)
              _ ≤ dc * 10 ^ t.length + parseDigits t := Nat.le_add_right _ _
          omega

/-- Equal-length digit lists with equal numeric values are equal. -/
theorem digits_inj {l₁ l₂ : List Char} (hlen : l₁.length = l₂.length)
    (h₁ : ∀ c ∈ l₁, IsDigitCh c) (h₂ : ∀ c ∈ l₂, IsDigitCh c)
    (hv : parseDigits l₁ = parseDigits l₂) : l₁ = l₂ := by
  apply charListLe_antisymm
  · exact (charListLe_digits hlen h₁ h₂).mpr (by omega)
  · exact (charListLe_digits hlen.symm h₂ h₁).mpr (by omega)

/-- Lexicographic comparison ignores a shared prefix. -/
theorem charListLe_append_same : ∀ (a x y : List Char),
    charListLe (a ++ x) (a ++ y) = charListLe x y := by
  intro a x y
  induction a with
  | nil => rfl
  | cons c t ih => simp [charListLe, ih]

/-- Lexicographic comparison of lists with equal-length distinct prefixes is
decided by the prefixes. -/
theorem charListLe_append_ne : ∀ (a b x y : List Char), a.length = b.length → a ≠ b →
    charListLe (a ++ x) (b ++ y) = charListLe a b := by
  intro a
  induction a with
  | nil =>
    intro b x y hlen hne
    cases b with
    | nil => exact absurd rfl hne
    | cons d u => simp at hlen
  | cons c t ih =>
    intro b x y hlen hne
    cases b with
    | nil => simp at hlen
    | cons d u =>
      simp only [List.length_cons, Nat.succ_inj] at hlen
      simp only [List.cons_append, charListLe]
      rcases Nat.lt_trichotomy c.toNat d.toNat with h | h | h
      · simp [h]
      · have hcd : c = d := charToNat_inj h
        subst hcd
        simp only [Nat.lt_irrefl, if_false]
        have htu : t ≠ u := by
          intro heq
          exact hne (by rw [heq])
        exact ih u x y hlen htu
      · simp [h, Nat.lt_asymm h]

theorem Date.Valid.fixedWidth {d : Date} (h : d.Valid) : d.FixedWidth := by
  obtain ⟨h1, h2, h3, h4, h5⟩ := h
  exact ⟨h1, by omega, by omega⟩

theorem mergeSort_congr {α : Type} {r s : α → α → Bool} {l : List α}
    (h : ∀ a ∈ l, ∀ b ∈ l, r a b = s a b) : l.mergeSort r = l.mergeSort s := by
  have := List.map_mergeSort (f := id) (r := r) (s := s) (l := l) h
  simpa using this

theorem display_digit_parts (d : Date) :
    (∀ c ∈ pad 4 (natChars d.year), IsDigitCh c)
    ∧ (∀ c ∈ pad 2 (natChars d.month), IsDigitCh c)
    ∧ (∀ c ∈ pad 2 (natChars d.day), IsDigitCh c) :=
  ⟨mem_pad_digit (mem_natChars_digit d.year),
   mem_pad_digit (mem_natChars_digit d.month),
   mem_pad_digit (mem_natChars_digit d.day)⟩

theorem display_length {d : Date} (h : d.FixedWidth) : d.display.length = 10 := by
  obtain ⟨h1, h2, h3⟩ := h
  simp only [Date.display, List.length_append, List.length_cons]
  rw [pad_natChars_length (by omega) h1,
    pad_natChars_length (by omega) (show d.month < 10 ^ 2 by omega),
    pad_natChars_length (by omega) (show d.day < 10 ^ 2 by omega)]

/-- Under the TOML width bounds, `display` is injective. -/
theorem display_inj {d e : Date} (hd : d.FixedWidth) (he : e.FixedWidth)
    (h : d.display = e.display) : d = e := by
  obtain ⟨hd1, hd2, hd3⟩ := hd
  obtain ⟨he1, he2, he3⟩ := he
  simp only [Date.display] at h
  have hylen : (pad 4 (natChars d.year)).length = (pad 4 (natChars e.year)).length := by
    rw [pad_natChars_length (by omega) hd1, pad_natChars_length (by omega) he1]
  obtain ⟨hy, h1⟩ := List.append_inj h hylen
  injection h1 with _ h2
  have hmlen : (pad 2 (natChars d.month)).length = (pad 2 (natChars e.month)).length := by
    rw [pad_natChars_length (by omega) (show d.month < 10 ^ 2 by omega),
      pad_natChars_length (by omega) (show e.month < 10 ^ 2 by omega)]
  obtain ⟨hm, h3⟩ := List.append_inj h2 hmlen
  injection h3 with _ h4
  have hyv := congrArg parseDigits hy
  have hmv := congrArg parseDigits hm
  have hdv := congrArg parseDigits h4
  rw [parseDigits_pad_natChars, parseDigits_pad_natChars] at hyv hmv hdv
  cases d; cases e; simp_all

theorem charListLe_cons_same (c : Char) (a b : List Char) :
    charListLe (c :: a) (c :: b) = charListLe a b := by
  simp [charListLe]

theorem charListLe_pad_natChars {k n m : Nat} (hk : 1 ≤ k) (hn : n < 10 ^ k) (hm : m < 10 ^ k) :
    charListLe (pad k (natChars n)) (pad k (natChars m)) = decide (n ≤ m) := by
  have hlen : (pad k (natChars n)).length = (pad k (natChars m)).length := by
    rw [pad_natChars_length hk hn, pad_natChars_length hk hm]
  have h := charListLe_digits hlen (mem_pad_digit (mem_natChars_digit n))
    (mem_pad_digit (mem_natChars_digit m))
  rw [parseDigits_pad_natChars, parseDigits_pad_natChars] at h
  by_cases hle : n ≤ m
  · simp [hle, h.mpr hle]
  · cases hc : charListLe (pad k (natChars n)) (pad k (natChars m))
    · simp [hle]
    · exact absurd (h.mp hc) hle

theorem pad_natChars_inj {k n m : Nat} (h : pad k (natChars n) = pad k (natChars m)) : n = m := by
  have := congrArg parseDigits h
  rwa [parseDigits_pad_natChars, parseDigits_pad_natChars] at this

/-- Lexicographic comparison of two fixed-width date renderings is calendar
comparison of the dates. -/
theorem charListLe_display {d e : Date} (hd : d.FixedWidth) (he : e.FixedWidth) :
    charListLe d.display e.display =
      (if d.year < e.year then true
       else if e.year < d.year then false
       else if d.month < e.month then true
       else if e.month < d.month then false
       else decide (d.day ≤ e.day)) := by
  obtain ⟨hd1, hd2, hd3⟩ := hd
  obtain ⟨he1, he2, he3⟩ := he
  simp only [Date.display]
  by_cases hy : d.year = e.year
  · rw [hy, charListLe_append_same, charListLe_cons_same]
    by_cases hm : d.month = e.month
    · rw [hm, charListLe_append_same, charListLe_cons_same,
        charListLe_pad_natChars (by omega) (show d.day < 10 ^ 2 by omega)
          (show e.day < 10 ^ 2 by omega)]
      simp [hy, hm]
    · rw [charListLe_append_ne _ _ _ _
        (by rw [pad_natChars_length (by omega) (show d.month < 10 ^ 2 by omega),
          pad_natChars_length (by omega) (show e.month < 10 ^ 2 by omega)])
        (fun hcon => hm (pad_natChars_inj hcon)),
        charListLe_pad_natChars (by omega) (show d.month < 10 ^ 2 by omega)
          (show e.month < 10 ^ 2 by omega)]
      rcases Nat.lt_or_ge d.month e.month with hlt | hge
      · simp [hy, hlt, show d.month ≤ e.month by omega]
      · have hlt : e.month < d.month := by omega
        simp [hy, hlt, show ¬ d.month < e.month by omega, show ¬ d.month ≤ e.month by omega]
  · rw [charListLe_append_ne _ _ _ _
      (by rw [pad_natChars_length (by omega) hd1, pad_natChars_length (by omega) he1])
      (fun hcon => hy (pad_natChars_inj hcon)),
      charListLe_pad_natChars (by omega) hd1 he1]
    rcases Nat.lt_or_ge d.year e.year with hlt | hge
    · simp [hlt, show d.year ≤ e.year by omega]
    · have hlt : e.year < d.year := by omega
      simp [hlt, show ¬ d.year < e.year by omega, show ¬ d.year ≤ e.year by omega]

/-- Under the TOML width bounds, the source's string sort key induces exactly the
spec's composite `(date, title)` order. -/
theorem postLe_eq_specLe {p q : Post} (hp : p.date.FixedWidth) (hq : q.date.FixedWidth) :
    postLe p q = specLe p q := by
  unfold postLe specLe sortKey
  by_cases hdq : p.date = q.date
  · rw [hdq, charListLe_append_same, charListLe_cons_same, if_pos rfl]
  · have hlen : p.date.display.length = q.date.display.length := by
      rw [display_length hp, display_length hq]
    have hne : p.date.display ≠ q.date.display := fun hcon => hdq (display_inj hp hq hcon)
    rw [charListLe_append_ne _ _ _ _ hlen hne, if_neg hdq, charListLe_display hp hq]
    by_cases hy : p.date.year = q.date.year
    · by_cases hm : p.date.month = q.date.month
      · have hday : p.date.day ≠ q.date.day := by
          intro hcon
          apply hdq
          cases hpd : p.date
          cases hqd : q.date
          simp_all
        simp only [hy, Nat.lt_irrefl, if_false, hm]
        have : (decide (p.date.day ≤ q.date.day)) = (decide (p.date.day < q.date.day)) := by
          rcases Nat.lt_or_ge p.date.day q.date.day with hlt | hge
          · simp [hlt, show p.date.day ≤ q.date.day by omega]
          · have : q.date.day < p.date.day := by omega
            simp [show ¬ p.date.day < q.date.day by omega, show ¬ p.date.day ≤ q.date.day by omega]
        simp [this]
      · rcases Nat.lt_or_ge p.date.month q.date.month with hlt | hge
        · simp [hy, hlt]
        · have hlt : q.date.month < p.date.month := by omega
          simp [hy, hlt, show ¬ p.date.month < q.date.month by omega]
    · rcases Nat.lt_or_ge p.date.year q.date.year with hlt | hge
      · simp [hlt]
      · have hlt : q.date.year < p.date.year := by omega
        simp [hlt, show ¬ p.date.year < q.date.year by omega]

theorem mergeSort_two {α : Type} (le : α → α → Bool) (a b : α) :
    [a, b].mergeSort le = if le a b then [a, b] else [b, a] := by
  rw [List.mergeSort]
  by_cases h : le a b <;> simp [List.splitInTwo, List.splitAt_eq, h, List.merge]

theorem postLe_trans : ∀ (a b c : Post), postLe a b → postLe b c → postLe a c :=
  fun _ _ _ hab hbc => charListLe_trans hab hbc

theorem postLe_total : ∀ (a b : Post), postLe a b || postLe b a :=
  fun a b => charListLe_total (sortKey a) (sortKey b)

/-- Under the TOML width bounds, the source's ordering step equals the spec's
stable sort by the composite `(date, title)` key ascending, then reversed. -/
theorem sortPosts_eq_specSortPosts (posts : List Post)
    (hv : ∀ p ∈ posts, p.date.FixedWidth) : sortPosts posts = specSortPosts posts := by
  unfold sortPosts specSortPosts
  rw [mergeSort_congr (fun a ha b hb => postLe_eq_specLe (hv a ha) (hv b hb))]

theorem sortKey_inj {p q : Post} (hp : p.date.FixedWidth) (hq : q.date.FixedWidth)
    (h : sortKey p = sortKey q) : p.date = q.date ∧ p.title = q.title := by
  unfold sortKey at h
  obtain ⟨h1, h2⟩ := List.append_inj h (by rw [display_length hp, display_length hq])
  injection h2 with _ h3
  exact ⟨display_inj hp hq h1, h3⟩

/-- When no two posts share a `(date, title)` pair, the order in which the
directory enumeration presents the files does not affect the sorted result. -/
theorem sortPosts_reverse_invariant (posts : List Post)
    (hv : ∀ p ∈ posts, p.date.FixedWidth)
    (hd : posts.Pairwise (fun p q => ¬ (p.date = q.date ∧ p.title = q.title))) :
    sortPosts posts.reverse = sortPosts posts := by
  unfold sortPosts
  have hkey : posts.Pairwise (fun p q => sortKey p ≠ sortKey q) := by
    refine hd.imp_of_mem ?_
    intro a b ha hb hnd hcon
    exact hnd (sortKey_inj (hv a ha) (hv b hb) hcon)
  congr 1
  apply @List.Perm.eq_of_sorted Post (fun a b => postLe a b = true)
  · intro a b ha hb hab hba
    have ha' : a ∈ posts := List.mem_reverse.mp (List.mem_mergeSort.mp ha)
    have hb' : b ∈ posts := List.mem_mergeSort.mp hb
    by_contra hne
    have hsymm : Symmetric (fun p q : Post => sortKey p ≠ sortKey q) :=
      fun p q h heq => h heq.symm
    exact hkey.forall hsymm ha' hb' hne (charListLe_antisymm hab hba)
  · exact List.sorted_mergeSort postLe_trans postLe_total _
  · exact List.sorted_mergeSort postLe_trans postLe_total _
  · exact ((List.mergeSort_perm _ _).trans (List.reverse_perm posts)).trans
      (List.mergeSort_perm _ _).symm

theorem dedupRun_sublist : ∀ (l : List (List Char)), List.Sublist (dedupRun l) l := by
  intro l
  induction l using dedupRun.induct with
  | case1 => simp [dedupRun]
  | case2 a => simp [dedupRun]
  | case3 b t ih =>
    rw [dedupRun, if_pos rfl]
    exact ih.trans ((List.sublist_cons_self b t).cons_cons b)
  | case4 a b t hab ih =>
    rw [dedupRun, if_neg hab]
    exact ih.cons_cons a

theorem mem_dedupRun : ∀ (l : List (List Char)) (x : List Char), x ∈ dedupRun l ↔ x ∈ l := by
  intro l
  induction l using dedupRun.induct with
  | case1 => simp [dedupRun]
  | case2 a => simp [dedupRun]
  | case3 b t ih =>
    intro x
    rw [dedupRun, if_pos rfl, ih]
    simp only [List.mem_cons]
    tauto
  | case4 a b t hab ih =>
    intro x
    rw [dedupRun, if_neg hab]
    simp only [List.mem_cons, ih]

theorem nodup_dedupRun : ∀ (l : List (List Char)),
    l.Pairwise (fun a b => charListLe a b = true) → (dedupRun l).Nodup := by
  intro l
  induction l using dedupRun.induct with
  | case1 => intro _; simp [dedupRun]
  | case2 a => intro _; simp [dedupRun]
  | case3 b t ih =>
    intro hp
    rw [dedupRun, if_pos rfl]
    apply ih
    rcases List.pairwise_cons.mp hp with ⟨h1, h2⟩
    exact List.pairwise_cons.mpr ⟨fun y hy => h1 y (List.mem_cons_of_mem _ hy),
      (List.pairwise_cons.mp h2).2⟩
  | case4 a b t hab ih =>
    intro hp
    rw [dedupRun, if_neg hab]
    rcases List.pairwise_cons.mp hp with ⟨h1, h2⟩
    refine List.nodup_cons.mpr ⟨?_, ih h2⟩
    intro hmem
    have hmem2 : a ∈ b :: t := (mem_dedupRun _ a).mp hmem
    rcases List.mem_cons.mp hmem2 with rfl | hat
    · exact hab rfl
    · have hba : charListLe b a = true := (List.pairwise_cons.mp h2).1 a hat
      have hab2 : charListLe a b = true := h1 b (List.mem_cons_self b t)
      exact hab (charListLe_antisymm hab2 hba)

theorem sorted_collect_tags (posts : List Post) :
    (collect_tags posts).Pairwise (fun a b => charListLe a b = true) := by
  unfold collect_tags
  exact ((@List.sorted_mergeSort _ charListLe (fun a b c hab hbc => @charListLe_trans a b c hab hbc)
    charListLe_total (posts.flatMap Post.tags)).sublist (dedupRun_sublist _) : _)

theorem nodup_collect_tags (posts : List Post) : (collect_tags posts).Nodup := by
  unfold collect_tags
  exact nodup_dedupRun _
    (@List.sorted_mergeSort _ charListLe (fun a b c hab hbc => @charListLe_trans a b c hab hbc)
      charListLe_total _)

theorem mem_collect_tags (posts : List Post) (t : List Char) :
    t ∈ collect_tags posts ↔ ∃ p ∈ posts, t ∈ p.tags := by
  unfold collect_tags
  rw [mem_dedupRun, List.mem_mergeSort, List.mem_flatMap]

theorem IsDigitCh.toNat_range {c : Char} (h : IsDigitCh c) :
    48 ≤ c.toNat ∧ c.toNat ≤ 57 := by
  obtain ⟨d, hd, rfl⟩ := h
  rw [digitChar_toNat hd]
  omega

theorem IsDigitCh.ne_of_toNat {c x : Char} (h : IsDigitCh c) (hx : x.toNat < 48 ∨ 57 < x.toNat) :
    c ≠ x := by
  intro hcon
  subst hcon
  have := h.toNat_range
  omega

theorem IsDigitCh.isDigitB {c : Char} (h : IsDigitCh c) : isDigitB c = true := by
  have := h.toNat_range
  simp [Rite.isDigitB]
  omega

theorem dropLit_append : ∀ (lit rest : List Char), dropLit lit (lit ++ rest) = some rest := by
  intro lit rest
  induction lit with
  | nil => rfl
  | cons c ct ih => simp [dropLit, ih]

theorem takeUntil_cons_self (c : Char) (r : List Char) :
    takeUntil c (c :: r) = some ([], r) := by
  simp [takeUntil]

theorem takeUntil_append {c : Char} : ∀ (a b : List Char), (∀ x ∈ a, x ≠ c) →
    takeUntil c (a ++ c :: b) = some (a, b) := by
  intro a b h
  induction a with
  | nil => exact takeUntil_cons_self c b
  | cons x xs ih =>
    have hx : x ≠ c := h x (List.mem_cons_self x xs)
    have hrec := ih (fun y hy => h y (List.mem_cons_of_mem x hy))
    simp only [List.cons_append, takeUntil, if_neg hx, List.append_eq, hrec]
    rfl

theorem findSub_append_dashFree : ∀ (a b : List Char), (∀ x ∈ a, x ≠ '-') →
    findSub dashes3 (a ++ b) = (findSub dashes3 b).map (· + a.length) := by
  intro a b h
  induction a with
  | nil =>
    cases hf : findSub dashes3 b <;> simp [hf]
  | cons x xs ih =>
    have hx : x ≠ '-' := h x (List.mem_cons_self x xs)
    have hlead : leads dashes3 (x :: (xs ++ b)) = false := by
      simp [dashes3, leads]
      intro hcon
      exact absurd hcon.symm hx
    have hrec := ih (fun y hy => h y (List.mem_cons_of_mem x hy))
    simp only [List.cons_append, findSub, List.append_eq, hlead, Bool.false_eq_true,
      if_false, hrec]
    cases findSub dashes3 b
    · rfl
    · simp only [Option.map_some', List.length_cons]
      congr 1

theorem findSub_cons_dash : ∀ (a b : List Char), (∀ x ∈ a, x ≠ '-') → a ≠ [] →
    findSub dashes3 ('-' :: (a ++ b)) = (findSub dashes3 (a ++ b)).map (· + 1) := by
  intro a b h ha
  cases a with
  | nil => exact absurd rfl ha
  | cons x xs =>
    have hx : x ≠ '-' := h x (List.mem_cons_self x xs)
    have hlead : leads dashes3 ('-' :: ((x :: xs) ++ b)) = false := by
      simp [dashes3, leads]
      intro hcon
      exact absurd hcon.symm hx
    simp only [findSub, hlead, Bool.false_eq_true, if_false]

theorem mem_display {d : Date} : ∀ c ∈ d.display, IsDigitCh c ∨ c = '-' := by
  intro c hc
  simp only [Date.display, List.mem_append, List.mem_cons] at hc
  rcases hc with hc | hc | hc
  · exact Or.inl (mem_pad_digit (mem_natChars_digit d.year) c hc)
  · exact Or.inr hc
  · rcases hc with hc | hc | hc
    · exact Or.inl (mem_pad_digit (mem_natChars_digit d.month) c hc)
    · exact Or.inr hc
    · exact Or.inl (mem_pad_digit (mem_natChars_digit d.day) c hc)

theorem fileStem_append_md : ∀ (x : List Char), x ≠ [] → (∀ c ∈ x, c ≠ '.') →
    fileStem (x ++ ".md".toList) = x := by
  intro x hx h
  have hrev : (x ++ ".md".toList).reverse = 'd' :: 'm' :: '.' :: x.reverse := by
    simp [List.reverse_append]
  unfold fileStem
  rw [hrev]
  have h1 : takeUntil '.' ('d' :: 'm' :: '.' :: x.reverse)
      = some (['d', 'm'], x.reverse) := by
    simp [takeUntil]
  rw [h1]
  have h2 : x.reverse ≠ [] := by simpa using hx
  simp only [if_neg h2, List.reverse_reverse]

theorem parseYmd_display {d : Date} (hv : d.Valid) : parseYmd d.display = some d := by
  obtain ⟨h1, h2, h3, h4, h5⟩ := hv
  have hp4 : (10 : Nat) ^ 4 = 10000 := by norm_num
  have hp2 : (10 : Nat) ^ 2 = 100 := by norm_num
  have hy4 : d.year < 10 ^ 4 := by omega
  have hm2 : d.month < 10 ^ 2 := by omega
  have hd2 : d.day < 10 ^ 2 := by omega
  have hynd : ∀ x ∈ pad 4 (natChars d.year), x ≠ '-' := fun x hx =>
    (mem_pad_digit (mem_natChars_digit d.year) x hx).ne_of_toNat (Or.inl (by decide))
  have hmnd : ∀ x ∈ pad 2 (natChars d.month), x ≠ '-' := fun x hx =>
    (mem_pad_digit (mem_natChars_digit d.month) x hx).ne_of_toNat (Or.inl (by decide))
  show parseYmd (pad 4 (natChars d.year)
    ++ '-' :: (pad 2 (natChars d.month) ++ '-' :: pad 2 (natChars d.day))) = some d
  unfold parseYmd
  rw [takeUntil_append _ _ hynd]
  simp only [Option.bind_eq_bind, Option.some_bind]
  rw [takeUntil_append _ _ hmnd]
  simp only [Option.some_bind]
  rw [if_pos]
  · simp only [parseDigits_pad_natChars]
  · refine ⟨pad_natChars_length (by omega) hy4, pad_natChars_length (by omega) hm2,
      pad_natChars_length (by omega) hd2,
      List.all_eq_true.mpr (fun x hx => (mem_pad_digit (mem_natChars_digit d.year) x hx).isDigitB),
      List.all_eq_true.mpr (fun x hx => (mem_pad_digit (mem_natChars_digit d.month) x hx).isDigitB),
      List.all_eq_true.mpr (fun x hx => (mem_pad_digit (mem_natChars_digit d.day) x hx).isDigitB),
      ?_, ?_, ?_, ?_⟩ <;> rw [parseDigits_pad_natChars] <;> omega

theorem newPostHeaderChars_split (d : Date) :
    newPostHeaderChars d = "title = \"".toList
      ++ '"' :: ("\ndate = ".toList
      ++ (d.display ++ '\n' :: ("tags = [".toList ++ ']' :: '\n' :: []))) := by
  show "title = \"\"\ndate = ".toList ++ d.display ++ "\ntags = []\n".toList = _
  have h1 : "title = \"\"\ndate = ".toList
      = "title = \"".toList ++ '"' :: "\ndate = ".toList := by decide
  have h2 : "\ntags = []\n".toList
      = '\n' :: ("tags = [".toList ++ ']' :: '\n' :: []) := by decide
  rw [h1, h2]
  simp [List.append_assoc]

theorem display_ne_quote {d : Date} : ∀ x ∈ d.display, x ≠ '"' := by
  intro x hx
  rcases mem_display x hx with hd | hd
  · exact hd.ne_of_toNat (Or.inl (by decide))
  · subst hd; decide

theorem display_ne_newline {d : Date} : ∀ x ∈ d.display, x ≠ '\n' := by
  intro x hx
  rcases mem_display x hx with hd | hd
  · exact hd.ne_of_toNat (Or.inl (by decide))
  · subst hd; decide

theorem tomlHeaderParse_new {d : Date} (hv : d.Valid) :
    tomlHeaderParse (newPostHeaderChars d) = some ⟨[], d, []⟩ := by
  rw [newPostHeaderChars_split]
  unfold tomlHeaderParse
  rw [dropLit_append]
  simp only [Option.bind_eq_bind, Option.some_bind]
  rw [takeUntil_cons_self]
  simp only [Option.some_bind]
  rw [dropLit_append]
  simp only [Option.some_bind]
  rw [takeUntil_append _ _ display_ne_newline]
  simp only [Option.some_bind]
  rw [show tomlParseDate d.display = some d from parseYmd_display hv]
  simp only [Option.some_bind]
  rw [dropLit_append]
  simp only [Option.some_bind]
  rw [takeUntil_cons_self]
  simp [dropLit]
  rfl

theorem findSub_new_header {d : Date} (hv : d.Valid) (suffix : List Char) :
    findSub dashes3 (newPostHeaderChars d ++ ("---\n\n".toList ++ TOP_TAG ++ suffix))
      = some (newPostHeaderChars d).length := by
  have hfw := hv.fixedWidth
  obtain ⟨h1, h2, h3⟩ := hfw
  have hA : ∀ x ∈ "title = \"\"\ndate = ".toList, x ≠ '-' := by decide
  have hB : ∀ x ∈ "\ntags = []\n".toList, x ≠ '-' := by decide
  have hy : ∀ x ∈ pad 4 (natChars d.year), x ≠ '-' := fun x hx =>
    (mem_pad_digit (mem_natChars_digit d.year) x hx).ne_of_toNat (Or.inl (by decide))
  have hm : ∀ x ∈ pad 2 (natChars d.month), x ≠ '-' := fun x hx =>
    (mem_pad_digit (mem_natChars_digit d.month) x hx).ne_of_toNat (Or.inl (by decide))
  have hd : ∀ x ∈ pad 2 (natChars d.day), x ≠ '-' := fun x hx =>
    (mem_pad_digit (mem_natChars_digit d.day) x hx).ne_of_toNat (Or.inl (by decide))
  have hp2 : (10 : Nat) ^ 2 = 100 := by norm_num
  have hmne : pad 2 (natChars d.month) ≠ [] := by
    intro hcon
    have := pad_natChars_length (n := d.month) (k := 2) (by omega) (by omega)
    rw [hcon] at this
    simp at this
  have hdne : pad 2 (natChars d.day) ≠ [] := by
    intro hcon
    have := pad_natChars_length (n := d.day) (k := 2) (by omega) (by omega)
    rw [hcon] at this
    simp at this
  have hbase : findSub dashes3 ("---\n\n".toList ++ TOP_TAG ++ suffix) = some 0 := by
    have hX : "---\n\n".toList ++ TOP_TAG ++ suffix
        = '-' :: '-' :: '-' :: '\n' :: '\n' :: (TOP_TAG ++ suffix) := by
      have h5 : "---\n\n".toList = ['-', '-', '-', '\n', '\n'] := by decide
      rw [List.append_assoc, h5]
      simp
    rw [hX]
    have hl : leads dashes3 ('-' :: '-' :: '-' :: '\n' :: '\n' :: (TOP_TAG ++ suffix)) = true := by
      simp [dashes3, leads]
    simp [findSub, hl]
  have hstep : newPostHeaderChars d ++ ("---\n\n".toList ++ TOP_TAG ++ suffix)
      = "title = \"\"\ndate = ".toList ++ (pad 4 (natChars d.year)
        ++ ('-' :: (pad 2 (natChars d.month)
        ++ ('-' :: (pad 2 (natChars d.day)
        ++ ("\ntags = []\n".toList ++ ("---\n\n".toList ++ TOP_TAG ++ suffix))))))) := by
    show ("title = \"\"\ndate = ".toList ++ d.display ++ "\ntags = []\n".toList) ++ _ = _
    simp only [Date.display, List.append_assoc, List.cons_append]
  rw [hstep,
    findSub_append_dashFree _ _ hA,
    findSub_append_dashFree _ _ hy,
    findSub_cons_dash _ _ hm hmne,
    findSub_append_dashFree _ _ hm,
    findSub_cons_dash _ _ hd hdne,
    findSub_append_dashFree _ _ hd,
    findSub_append_dashFree _ _ hB,
    hbase]
  simp only [Option.map_some']
  have hlen : (newPostHeaderChars d).length
      = "title = \"\"\ndate = ".toList.length + (10 + "\ntags = []\n".toList.length) := by
    show ("title = \"\"\ndate = ".toList ++ d.display ++ "\ntags = []\n".toList).length = _
    simp only [List.length_append]
    rw [display_length ⟨h1, h2, h3⟩]
    omega
  have hp4 : (10 : Nat) ^ 4 = 10000 := by norm_num
  rw [hlen,
    pad_natChars_length (n := d.year) (k := 4) (by omega) (by omega),
    pad_natChars_length (n := d.month) (k := 2) (by omega) (by omega),
    pad_natChars_length (n := d.day) (k := 2) (by omega) (by omega)]
  congr 1

theorem create_post_fileContents (st : PostsState) (today : Date) :
    (create_post st today).fileContents
      = '-' :: '-' :: '-' :: '\n'
        :: (newPostHeaderChars today ++ ("---\n\n".toList ++ TOP_TAG)) := by
  show "---\n".toList ++ newPostHeaderChars today ++ "---\n\n".toList ++ TOP_TAG = _
  have h4 : "---\n".toList = ['-', '-', '-', '\n'] := by decide
  rw [h4]
  simp [List.append_assoc]

theorem newPostHeaderChars_length {today : Date} (hv : today.Valid) :
    (newPostHeaderChars today).length = 39 := by
  show ("title = \"\"\ndate = ".toList ++ today.display ++ "\ntags = []\n".toList).length = 39
  simp only [List.length_append]
  rw [display_length hv.fixedWidth]
  have hA : "title = \"\"\ndate = ".toList.length = 18 := by decide
  have hB : "\ntags = []\n".toList.length = 11 := by decide
  omega

/-- Reading back the file that `create_post` wrote: the post round-trips with
the created name, empty title, the creation date and no tags, and the body is
exactly the summary sentinel (hence `top = some 0`). -/
theorem create_read_roundtrip (st : PostsState) {today : Date} (hv : today.Valid) :
    Post.read (create_post st today).filePath (create_post st today).fileContents
      = .ok { name := natChars st.posts.length, title := [], date := today,
              tags := [], content := TOP_TAG, top := some 0 } := by
  have hct := create_post_fileContents st today
  have hHlen := newPostHeaderChars_length hv
  have hclen : (create_post st today).fileContents.length = 60 := by
    rw [hct]
    simp only [List.length_cons, List.length_append, hHlen]
    have : TOP_TAG.length = 12 := by decide
    have h5 : "---\n\n".toList.length = 5 := by decide
    omega
  have hdrop4 : (create_post st today).fileContents.drop 4
      = newPostHeaderChars today ++ ("---\n\n".toList ++ TOP_TAG) := by
    rw [hct]
    rfl
  have hfind : findSub dashes3 (newPostHeaderChars today ++ ("---\n\n".toList ++ TOP_TAG))
      = some 39 := by
    have := findSub_new_header hv []
    rw [List.append_nil] at this
    rw [this, hHlen]
  have htake : (newPostHeaderChars today ++ ("---\n\n".toList ++ TOP_TAG)).take 39
      = newPostHeaderChars today := by
    rw [← hHlen]
    exact List.take_left _ _
  have hdrop48 : (create_post st today).fileContents.drop 48 = TOP_TAG := by
    rw [hct]
    show (newPostHeaderChars today ++ ("---\n\n".toList ++ TOP_TAG)).drop 44 = TOP_TAG
    rw [show (44 : Nat) = (newPostHeaderChars today).length + 5 by omega,
      List.drop_append]
    rfl
  have htop : findSub TOP_TAG TOP_TAG = some 0 := by decide
  have hchrono : chronoParseDate today.display = some today := parseYmd_display hv
  have hstem : fileStem (create_post st today).filePath = natChars st.posts.length := by
    show fileStem (natChars st.posts.length ++ ".md".toList) = _
    exact fileStem_append_md _ (natChars_ne_nil _)
      (fun c hc => (mem_natChars_digit _ c hc).ne_of_toNat (Or.inl (by decide)))
  simp only [Post.read, hclen, hdrop4, hfind, htake, tomlHeaderParse_new hv, hchrono,
    hstem, htop]
  norm_num
  exact ⟨hdrop48, by rw [hdrop48]; exact htop⟩

theorem collect_sidenotesAux_out {e : Event} (he : isFDBoundary e = false)
    (buf : List Char) (rest : List Event) :
    collect_sidenotesAux false buf (e :: rest) = collect_sidenotesAux false buf rest := by
  cases e with
  | start t => cases t <;> simp [collect_sidenotesAux, isFDBoundary] at he ⊢
  | end' t => cases t <;> simp [collect_sidenotesAux, isFDBoundary] at he ⊢
  | text t => simp [collect_sidenotesAux]
  | softBreak => simp [collect_sidenotesAux]
  | _ => simp [collect_sidenotesAux]

theorem collect_sidenotesAux_body {body : List Event}
    (hb : ∀ e ∈ body, isFDBoundary e = false) (buf : List Char) (l : List Char)
    (rest : List Event) :
    collect_sidenotesAux true buf (body ++ .end' (.footnoteDefinition l) :: rest)
      = (buf ++ flattenText body) :: collect_sidenotesAux false [] rest := by
  induction body generalizing buf with
  | nil => simp [collect_sidenotesAux, flattenText]
  | cons e b ih =>
    have hrest : ∀ x ∈ b, isFDBoundary x = false :=
      fun x hx => hb x (List.mem_cons_of_mem e hx)
    have he : isFDBoundary e = false := hb e (List.mem_cons_self e b)
    cases e with
    | start t =>
      cases t <;> simp [isFDBoundary] at he <;>
        simp [collect_sidenotesAux, flattenText, ih hrest]
    | end' t =>
      cases t <;> simp [isFDBoundary] at he <;>
        simp [collect_sidenotesAux, flattenText, ih hrest]
    | text t => simp [collect_sidenotesAux, flattenText, ih hrest, List.append_assoc]
    | softBreak => simp [collect_sidenotesAux, flattenText, ih hrest, List.append_assoc]
    | _ => simp [collect_sidenotesAux, flattenText, ih hrest]

theorem collect_sidenotesAux_segs : ∀ (segs : List Seg), (∀ s ∈ segs, s.Wf) →
    collect_sidenotesAux false [] (segsEvents segs) = segNoteTexts segs := by
  intro segs hw
  induction segs with
  | nil => rfl
  | cons s rest ih =>
    have hs : s.Wf := hw s (List.mem_cons_self s rest)
    have hrest : ∀ x ∈ rest, x.Wf := fun x hx => hw x (List.mem_cons_of_mem s hx)
    cases s with
    | out e =>
      show collect_sidenotesAux false [] ([e] ++ segsEvents rest) = _
      rw [List.singleton_append, collect_sidenotesAux_out hs, ih hrest]
      rfl
    | note l body =>
      show collect_sidenotesAux false []
        ((.start (.footnoteDefinition l) :: (body ++ [.end' (.footnoteDefinition l)]))
          ++ segsEvents rest) = _
      rw [List.cons_append, List.append_assoc, List.singleton_append]
      show collect_sidenotesAux true []
        (body ++ .end' (.footnoteDefinition l) :: segsEvents rest) = _
      rw [collect_sidenotesAux_body hs, ih hrest]
      rfl

theorem notesAux_sidenote_body {body : List Event}
    (hb : ∀ e ∈ body, isFDBoundary e = false ∧ isRefEvent e = false)
    {l : List Char} (hl : startsS l = true) (sns : List (List Char))
    (rest : List Event) :
    notesAux true true sns (body ++ .end' (.footnoteDefinition l) :: rest)
      = body.filter (fun e => !suppressedInSidenote e) ++ notesAux false false sns rest := by
  induction body with
  | nil => simp [notesAux, hl]
  | cons e b ih =>
    have hrest : ∀ x ∈ b, isFDBoundary x = false ∧ isRefEvent x = false :=
      fun x hx => hb x (List.mem_cons_of_mem e hx)
    obtain ⟨he1, he2⟩ := hb e (List.mem_cons_self e b)
    cases e with
    | start t =>
      cases t <;> simp [isFDBoundary] at he1 <;>
        simp [notesAux, suppressedInSidenote, ih hrest]
    | end' t =>
      cases t <;> simp [isFDBoundary] at he1 <;>
        simp [notesAux, suppressedInSidenote, ih hrest]
    | footnoteReference label => simp [isRefEvent] at he2
    | text t => simp [notesAux, suppressedInSidenote, ih hrest]
    | _ => simp [notesAux, suppressedInSidenote, ih hrest]

theorem synHl_error (ss : SynSet) (hl : List Char → List Char → Except Nat (List Char)) :
    ∀ (events : List Event) (buf : List Char) (inCode : Bool) (e : Nat),
    synHl ss hl events buf inCode = .error e → ∃ t s, hl t s = .error e := by
  intro events
  induction events with
  | nil =>
    intro buf inCode e h
    simp [synHl] at h
  | cons ev rest ih =>
    intro buf inCode e h
    cases ev with
    | start t =>
      cases t with
      | codeBlock k =>
        simp only [synHl] at h
        exact ih _ _ _ h
      | paragraph =>
        simp only [synHl] at h
        cases hr : synHl ss hl rest buf inCode <;> rw [hr] at h <;> simp at h
        subst h
        exact ih _ _ _ hr
      | footnoteDefinition l =>
        simp only [synHl] at h
        cases hr : synHl ss hl rest buf inCode <;> rw [hr] at h <;> simp at h
        subst h
        exact ih _ _ _ hr
      | other i =>
        simp only [synHl] at h
        cases hr : synHl ss hl rest buf inCode <;> rw [hr] at h <;> simp at h
        subst h
        exact ih _ _ _ hr
    | end' t =>
      cases t with
      | codeBlock k =>
        simp only [synHl] at h
        cases inCode with
        | false =>
          simp only [Bool.false_eq_true, if_false] at h
          cases hr : synHl ss hl rest buf false <;> rw [hr] at h <;> simp at h
          subst h
          exact ih _ _ _ hr
        | true =>
          simp only [if_true] at h
          cases hhl : hl buf (chooseHlSyn ss (langOf k)) <;> rw [hhl] at h
          · simp at h
            subst h
            exact ⟨buf, chooseHlSyn ss (langOf k), hhl⟩
          · cases hr : synHl ss hl rest [] false <;> rw [hr] at h <;> simp at h
            subst h
            exact ih _ _ _ hr
      | paragraph =>
        simp only [synHl] at h
        cases hr : synHl ss hl rest buf inCode <;> rw [hr] at h <;> simp at h
        subst h
        exact ih _ _ _ hr
      | footnoteDefinition l =>
        simp only [synHl] at h
        cases hr : synHl ss hl rest buf inCode <;> rw [hr] at h <;> simp at h
        subst h
        exact ih _ _ _ hr
      | other i =>
        simp only [synHl] at h
        cases hr : synHl ss hl rest buf inCode <;> rw [hr] at h <;> simp at h
        subst h
        exact ih _ _ _ hr
    | text t =>
      simp only [synHl] at h
      cases inCode with
      | true =>
        simp only [if_true] at h
        exact ih _ _ _ h
      | false =>
        simp only [Bool.false_eq_true, if_false] at h
        cases hr : synHl ss hl rest buf false <;> rw [hr] at h <;> simp at h
        subst h
        exact ih _ _ _ hr
    | code s =>
      simp only [synHl] at h
      cases hr : synHl ss hl rest buf inCode <;> rw [hr] at h <;> simp at h
      subst h
      exact ih _ _ _ hr
    | html s =>
      simp only [synHl] at h
      cases hr : synHl ss hl rest buf inCode <;> rw [hr] at h <;> simp at h
      subst h
      exact ih _ _ _ hr
    | footnoteReference l =>
      simp only [synHl] at h
      cases hr : synHl ss hl rest buf inCode <;> rw [hr] at h <;> simp at h
      subst h
      exact ih _ _ _ hr
    | softBreak =>
      simp only [synHl] at h
      cases hr : synHl ss hl rest buf inCode <;> rw [hr] at h <;> simp at h
      subst h
      exact ih _ _ _ hr
    | hardBreak =>
      simp only [synHl] at h
      cases hr : synHl ss hl rest buf inCode <;> rw [hr] at h <;> simp at h
      subst h
      exact ih _ _ _ hr
    | rule =>
      simp only [synHl] at h
      cases hr : synHl ss hl rest buf inCode <;> rw [hr] at h <;> simp at h
      subst h
      exact ih _ _ _ hr

theorem render_html_error {m : MarkdownM} {content : List Char} {e : Nat}
    (h : render_html m content = .error e) : ∃ t s, m.hl t s = .error e := by
  unfold render_html at h
  cases hr : synHlRun m.synSet m.hl (m.parse content) <;> rw [hr] at h <;> simp at h
  subst h
  exact synHl_error m.synSet m.hl _ _ _ _ hr

theorem readAll_cons_ok {p c : List Char} {post : Post}
    {rest : List (List Char × List Char)} {ps : List Post}
    (h1 : Post.read p c = .ok post) (h2 : readAll rest = .ok ps) :
    readAll ((p, c) :: rest) = .ok (post :: ps) := by
  simp [readAll, h1, h2]

theorem readAll_cons_inv {p c : List Char} {rest : List (List Char × List Char)}
    {l : List Post} (h : readAll ((p, c) :: rest) = .ok l) :
    ∃ post ps, Post.read p c = .ok post ∧ readAll rest = .ok ps ∧ l = post :: ps := by
  simp only [readAll] at h
  cases hr : Post.read p c <;> rw [hr] at h
  · cases hrest : readAll rest <;> rw [hrest] at h <;> simp at h
    exact ⟨_, _, rfl, rfl, h.symm⟩
  · simp at h
  · simp at h

theorem readAll_append_ok : ∀ {fs1 fs2 : List (List Char × List Char)}
    {l1 l2 : List Post}, readAll fs1 = .ok l1 → readAll fs2 = .ok l2 →
    readAll (fs1 ++ fs2) = .ok (l1 ++ l2) := by
  intro fs1
  induction fs1 with
  | nil =>
    intro fs2 l1 l2 h1 h2
    simp only [readAll] at h1
    injection h1 with he
    subst he
    simpa using h2
  | cons f rest ih =>
    intro fs2 l1 l2 h1 h2
    obtain ⟨p, c⟩ := f
    obtain ⟨post, ps, hr, hrest, rfl⟩ := readAll_cons_inv h1
    rw [List.cons_append]
    rw [readAll_cons_ok hr (ih hrest h2)]
    rfl

theorem readAll_reverse_ok : ∀ {files : List (List Char × List Char)} {posts : List Post},
    readAll files = .ok posts → readAll files.reverse = .ok posts.reverse := by
  intro files
  induction files with
  | nil =>
    intro posts h
    simp only [readAll] at h
    injection h with he
    subst he
    rfl
  | cons f rest ih =>
    intro posts h
    obtain ⟨p, c⟩ := f
    obtain ⟨post, ps, hr, hrest, rfl⟩ := readAll_cons_inv h
    rw [List.reverse_cons,
      readAll_append_ok (ih hrest) (readAll_cons_ok hr (rfl : readAll [] = .ok []))]
    simp

/-! ### Claim theorems -/
/-- C1 (counterexample): the Stage-2 pre-scan collects the body of a
footnote definition whose label `f1` does not begin with `s`, so the claim
that non-`s` definitions contribute nothing to the list is false. -/
theorem C1_counterexample :
    collect_sidenotes [.start (.footnoteDefinition ['f', '1']), .text ['x'],
      .end' (.footnoteDefinition ['f', '1'])] = [['x']]
    ∧ startsS ['f', '1'] = false := by
  decide

/-- C1 (amended): the Stage-2 sidenote pre-scan collects the text content of
EVERY footnote-definition block, regardless of its label, in document order,
concatenating each definition's text runs with soft line breaks turned into a
single space, and then reverses the collected list so that popping from the
end yields bodies in document order. -/
theorem C1_sidenote_prescan_collects_all (segs : List Seg) (hw : ∀ s ∈ segs, s.Wf) :
    collect_sidenotes (segsEvents segs) = (segNoteTexts segs).reverse := by
  unfold collect_sidenotes
  rw [collect_sidenotesAux_segs segs hw]

/-- C1 witness: the amended theorem applied to a concrete document with one
two-line sidenote definition, a loose text event, and one plain footnote
definition. -/
theorem C1_witness :
    (∀ s ∈ segsW, s.Wf)
    ∧ collect_sidenotes (segsEvents segsW) = (segNoteTexts segsW).reverse :=
  ⟨by decide, C1_sidenote_prescan_collects_all segsW (by decide)⟩

/-- C2 (counterexample): loading a repository containing a post file whose
closing `---` delimiter is missing panics with `invalid post header` (a crash);
it does not return an `Err` value, let alone one naming the file's path. -/
theorem C2_counterexample :
    collect_posts [("0.md".toList, badFile)] = .fatal invalidHeaderMsg
    ∧ (collect_posts [("0.md".toList, badFile)]).isErr = false := by
  decide

/-- C2 (amended): for every post file whose closing `---` delimiter is missing
after the opening delimiter, `Post::read` panics with message
`invalid post header` (the `expect` call at src/post.rs line 114) instead of
returning a parse error naming the file's path, and loading a repository that
presents such a file first crashes the same way. -/
theorem C2_missing_delimiter_panics (path contents : List Char)
    (rest : List (List Char × List Char)) (hlen : 4 ≤ contents.length)
    (hmiss : findSub dashes3 (contents.drop 4) = none) :
    Post.read path contents = .fatal invalidHeaderMsg
    ∧ collect_posts ((path, contents) :: rest) = .fatal invalidHeaderMsg := by
  have h1 : Post.read path contents = .fatal invalidHeaderMsg := by
    unfold Post.read
    rw [if_neg (by omega), hmiss]
  refine ⟨h1, ?_⟩
  have h2 : readAll ((path, contents) :: rest) = .fatal invalidHeaderMsg := by
    simp [readAll, h1]
  simp [collect_posts, h2]

/-- C2 witness: the amended theorem applied to a concrete header-only file. -/
theorem C2_witness :
    (4 ≤ badFile.length ∧ findSub dashes3 (badFile.drop 4) = none)
    ∧ (Post.read "0.md".toList badFile = .fatal invalidHeaderMsg
       ∧ collect_posts [("0.md".toList, badFile)] = .fatal invalidHeaderMsg) :=
  ⟨by decide, C2_missing_delimiter_panics "0.md".toList badFile [] (by decide) (by decide)⟩

/-- C3 (counterexample): two valid post files that share the same `(date,
title)` pair but have different names swap their relative position in the
final order when the directory enumeration is reversed, because the sort is
stable; so enumeration order does affect the result. -/
theorem C3_counterexample :
    collect_posts ([fileA, fileB].reverse) ≠ collect_posts [fileA, fileB] := by
  have hr1 : readAll [fileA, fileB] = .ok [postA, postB] := by decide
  have hr2 : readAll [fileB, fileA] = .ok [postB, postA] := by decide
  have hle1 : postLe postA postB = true := by decide
  have hle2 : postLe postB postA = true := by decide
  show collect_posts [fileB, fileA] ≠ collect_posts [fileA, fileB]
  unfold collect_posts
  rw [hr1, hr2]
  show ReadOutcome.ok (sortPosts [postB, postA]) ≠ ReadOutcome.ok (sortPosts [postA, postB])
  unfold sortPosts
  rw [mergeSort_two, mergeSort_two, hle1, hle2]
  simp only [if_true]
  intro hcon
  injection hcon with he
  simp at he
  exact absurd he.1 (by decide)

/-- C3 (amended): for every valid set of post files, the repository's final
order is the stable sort by the composite key `(date, title)` ascending
followed by a reversal; and provided no two posts share the same `(date,
title)` pair, reversing the directory-enumeration order of the input files
does not change the final order. -/
theorem C3_post_order (files : List (List Char × List Char)) (posts : List Post)
    (hread : readAll files = .ok posts) (hv : ∀ p ∈ posts, p.date.FixedWidth) :
    collect_posts files = .ok (specSortPosts posts)
    ∧ (posts.Pairwise (fun p q => ¬ (p.date = q.date ∧ p.title = q.title)) →
        collect_posts files.reverse = collect_posts files) := by
  constructor
  · unfold collect_posts
    rw [hread]
    show ReadOutcome.ok (sortPosts posts) = ReadOutcome.ok (specSortPosts posts)
    rw [sortPosts_eq_specSortPosts posts hv]
  · intro hd
    unfold collect_posts
    rw [hread, readAll_reverse_ok hread]
    show ReadOutcome.ok (sortPosts posts.reverse) = ReadOutcome.ok (sortPosts posts)
    rw [sortPosts_reverse_invariant posts hv hd]

/-- C3 witness: the amended theorem applied to a one-file repository. -/
theorem C3_witness :
    (readAll [fileA] = .ok [postA])
    ∧ (∀ p ∈ [postA], p.date.FixedWidth)
    ∧ (collect_posts [fileA] = .ok (specSortPosts [postA])
       ∧ ([postA].Pairwise (fun p q => ¬ (p.date = q.date ∧ p.title = q.title)) →
           collect_posts [fileA].reverse = collect_posts [fileA])) :=
  ⟨by decide, by decide, C3_post_order [fileA] [postA] (by decide) (by decide)⟩

/-- C4: a post created by `create_post` and reloaded from the file it wrote
reproduces the same name, an empty title, the creation date, an empty tag
list, and a body that is exactly the summary sentinel `<!-- top -->`. -/
theorem C4_create_post_roundtrip (st : PostsState) (today : Date) (hv : today.Valid) :
    ∃ p, Post.read (create_post st today).filePath (create_post st today).fileContents
        = .ok p
      ∧ p.name = (create_post st today).post.name
      ∧ p.title = [] ∧ p.date = today ∧ p.tags = [] ∧ p.content = TOP_TAG :=
  ⟨_, create_read_roundtrip st hv, rfl, rfl, rfl, rfl, rfl⟩

/-- C4 witness: the round trip at a concrete repository and date. -/
theorem C4_witness :
    (⟨2024, 5, 17⟩ : Date).Valid
    ∧ ∃ p, Post.read (create_post ⟨[], [], []⟩ ⟨2024, 5, 17⟩).filePath
          (create_post ⟨[], [], []⟩ ⟨2024, 5, 17⟩).fileContents = .ok p
        ∧ p.name = (create_post ⟨[], [], []⟩ ⟨2024, 5, 17⟩).post.name
        ∧ p.title = [] ∧ p.date = ⟨2024, 5, 17⟩ ∧ p.tags = [] ∧ p.content = TOP_TAG :=
  ⟨by decide, C4_create_post_roundtrip ⟨[], [], []⟩ ⟨2024, 5, 17⟩ (by decide)⟩

/-- C5 (counterexample): inside an `s`-labelled footnote definition only
paragraph boundaries and text are suppressed; an enclosed inline-code event
survives into the output at the definition's original position, so "all
events enclosed between its start and end are suppressed" is false. -/
theorem C5_counterexample :
    notes [.start (.footnoteDefinition ['s', '1']), .start .paragraph, .text ['a'],
      .code ['x'], .end' .paragraph, .end' (.footnoteDefinition ['s', '1'])]
      = [.code ['x']] := by
  decide

/-- C5 (amended): an `s`-labelled footnote definition emits nothing for its
start and end events, and the enclosed paragraph-boundary and text events are
suppressed; every other enclosed event (inline code, breaks, HTML, ...) passes
through to the output at the original position. -/
theorem C5_sidenote_definition_rewrite (label : List Char) (body : List Event)
    (hs : startsS label = true)
    (hb : ∀ e ∈ body, isFDBoundary e = false ∧ isRefEvent e = false) :
    notes (.start (.footnoteDefinition label)
        :: (body ++ [.end' (.footnoteDefinition label)]))
      = body.filter (fun e => !suppressedInSidenote e) := by
  unfold notes
  simp only [notesAux, hs, if_true]
  rw [show body ++ [Event.end' (Tag.footnoteDefinition label)]
      = body ++ Event.end' (Tag.footnoteDefinition label) :: [] from rfl,
    notesAux_sidenote_body hb hs]
  simp [notesAux]

/-- C5 witness: the amended theorem at a concrete sidenote definition whose
body holds paragraph boundaries, text and an inline-code event. -/
theorem C5_witness :
    startsS "s1".toList = true
    ∧ (∀ e ∈ bodyW, isFDBoundary e = false ∧ isRefEvent e = false)
    ∧ notes (.start (.footnoteDefinition "s1".toList)
          :: (bodyW ++ [.end' (.footnoteDefinition "s1".toList)]))
        = bodyW.filter (fun e => !suppressedInSidenote e) :=
  ⟨by decide, by decide, C5_sidenote_definition_rewrite "s1".toList bodyW (by decide) (by decide)⟩

/-- C6: for every successfully loaded repository, the tag index is sorted
ascending, contains no duplicates, and holds exactly the tags occurring in
some post — even when posts share tags or repeat a tag internally. -/
theorem C6_tags_sorted_dedup (root : List Char) (files : List (List Char × List Char))
    (st : PostsState) (h : Posts.new root files = .ok st) :
    st.tags.Pairwise (fun a b => charListLe a b = true)
    ∧ st.tags.Nodup
    ∧ (∀ t, t ∈ st.tags ↔ ∃ p ∈ st.posts, t ∈ p.tags) := by
  unfold Posts.new at h
  cases hc : collect_posts files <;> rw [hc] at h <;> simp at h
  subst h
  exact ⟨sorted_collect_tags _, nodup_collect_tags _, fun t => mem_collect_tags _ t⟩

/-- C6 witness: the theorem at a concrete loaded repository. -/
theorem C6_witness :
    Posts.new "r".toList [] = .ok ⟨"r".toList, [], []⟩
    ∧ ((⟨"r".toList, [], []⟩ : PostsState).tags.Pairwise (fun a b => charListLe a b = true)
       ∧ (⟨"r".toList, [], []⟩ : PostsState).tags.Nodup
       ∧ (∀ t, t ∈ (⟨"r".toList, [], []⟩ : PostsState).tags
           ↔ ∃ p ∈ (⟨"r".toList, [], []⟩ : PostsState).posts, t ∈ p.tags)) := by
  have h : Posts.new "r".toList [] = .ok ⟨"r".toList, [], []⟩ := by
    simp [Posts.new, collect_posts, readAll, sortPosts, collect_tags, dedupRun]
  exact ⟨h, C6_tags_sorted_dedup "r".toList [] ⟨"r".toList, [], []⟩ h⟩

/-- C7: a code block with no language tag (indented or empty fence) or an
unrecognized tag falls back to the plain-text syntax, and `render_html`
returns an error only when the highlighting engine itself fails. -/
theorem C7_plain_fallback_and_engine_errors (ss : SynSet) (m : MarkdownM) :
    (∀ lang, lang = [] ∨ ss.findByExtension lang = none →
      chooseHlSyn ss lang = ss.plainText)
    ∧ (∀ content e, render_html m content = .error e → ∃ t s, m.hl t s = .error e) := by
  constructor
  · intro lang hmiss
    rcases hmiss with rfl | hnone
    · simp [chooseHlSyn]
    · unfold chooseHlSyn
      rw [hnone]
      by_cases he : lang.isEmpty <;> simp [he]
  · intro content e h
    exact render_html_error h

/-- C7 witness: the fallback at an unrecognized tag, and an engine failure
surfacing as the render error, at a concrete engine. -/
theorem C7_witness :
    ("zz".toList = [] ∨ ssW.findByExtension "zz".toList = none)
    ∧ render_html mW [] = .error 7
    ∧ chooseHlSyn ssW "zz".toList = ssW.plainText
    ∧ (∃ t s, mW.hl t s = .error 7) :=
  ⟨Or.inr rfl, rfl,
    (C7_plain_fallback_and_engine_errors ssW mW).1 "zz".toList (Or.inr rfl),
    (C7_plain_fallback_and_engine_errors ssW mW).2 [] 7 rfl⟩

/-- C8: a successful `create_post` leaves the tag index, the root and the
previously held posts unchanged; the only change is the single appended post,
whose name is the pre-call post count rendered in decimal, with empty title,
the creation date, no tags, empty content and no summary offset. -/
theorem C8_create_post_frame (st : PostsState) (today : Date) :
    (create_post st today).state.tags = st.tags
    ∧ (create_post st today).state.root = st.root
    ∧ (create_post st today).state.posts = st.posts ++ [(create_post st today).post]
    ∧ (create_post st today).post.name = natChars st.posts.length
    ∧ (create_post st today).post.title = []
    ∧ (create_post st today).post.date = today
    ∧ (create_post st today).post.tags = []
    ∧ (create_post st today).post.content = []
    ∧ (create_post st today).post.top = none :=
  ⟨rfl, rfl, rfl, rfl, rfl, rfl, rfl, rfl, rfl⟩

/-- C9: rendering is deterministic — the embedded pipeline is a pure function
of the engine state and the source text, so two renders of the same source
with the same engine agree.  (In this shallow embedding determinism holds by
construction; the theorem records that the model has no hidden state.) -/
theorem C9_render_deterministic (m : MarkdownM) (content : List Char) :
    render_html m content = render_html m content := rfl

/-- C10: the post returned (and appended) by `create_post` carries an empty
content and `top = none`, while reloading the file it wrote yields content
equal to the sentinel with `top = some 0` — so the in-memory post and its
on-disk reload disagree on those two fields. -/
theorem C10_create_post_disagreement (st : PostsState) (today : Date) (hv : today.Valid) :
    (create_post st today).post.content = []
    ∧ (create_post st today).post.top = none
    ∧ ∃ p, Post.read (create_post st today).filePath (create_post st today).fileContents
          = .ok p
        ∧ p.content = TOP_TAG ∧ p.top = some 0
        ∧ p.content ≠ (create_post st today).post.content
        ∧ p.top ≠ (create_post st today).post.top := by
  refine ⟨rfl, rfl, _, create_read_roundtrip st hv, rfl, rfl, ?_, ?_⟩
  · show TOP_TAG ≠ []
    decide
  · show (some 0 : Option Nat) ≠ none
    decide

/-- C10 witness: the disagreement at a concrete repository and date. -/
theorem C10_witness :
    (⟨2024, 5, 17⟩ : Date).Valid
    ∧ ((create_post ⟨[], [], []⟩ ⟨2024, 5, 17⟩).post.content = []
       ∧ (create_post ⟨[], [], []⟩ ⟨2024, 5, 17⟩).post.top = none
       ∧ ∃ p, Post.read (create_post ⟨[], [], []⟩ ⟨2024, 5, 17⟩).filePath
             (create_post ⟨[], [], []⟩ ⟨2024, 5, 17⟩).fileContents = .ok p
           ∧ p.content = TOP_TAG ∧ p.top = some 0
           ∧ p.content ≠ (create_post ⟨[], [], []⟩ ⟨2024, 5, 17⟩).post.content
           ∧ p.top ≠ (create_post ⟨[], [], []⟩ ⟨2024, 5, 17⟩).post.top) :=
  ⟨by decide, C10_create_post_disagreement ⟨[], [], []⟩ ⟨2024, 5, 17⟩ (by decide)⟩

end Rite

